import Mathlib

set_option autoImplicit false
set_option maxHeartbeats 1000000

/-!
Verification of the three linked-list variants of the repository
(src/lists/src/first.rs, second.rs, third.rs, linkedlist.rs).

Each Rust module is shallowly embedded in its own namespace:

* `First`  — first.rs: the i32 owned stack (`List`, `Link::{Empty, More}`).
* `Second` — second.rs: the generic owned stack (`List<T>`, `Link<T> =
  Option<Box<Node<T>>>`) with its iterators and iterative `Drop`.
* `Raw`    — linkedlist.rs: the doubly-linked deque over raw `NonNull`
  pointers, modelled with an explicit heap of addresses so that allocation
  and release of node storage can be tracked.
* `Third`  — third.rs: the reference-counted persistent list, modelled with
  an explicit heap carrying a strong count per node.

`Box` is identity in the model; raw pointers and `Rc` become `Nat`
addresses into an explicit heap. Mutating methods on `&mut self` become
state-passing functions.
-/

namespace First

/-- Model of first.rs `enum Link { Empty, More(Box<Node>) }` where
`Node { elem: i32, next: Link }`; the boxed node is inlined into the
`More` constructor (the box is identity in the model), and `i32` is
modelled as `Int` (no arithmetic is performed on elements). -/
inductive Link : Type where
  | Empty : Link
  | More (elem : Int) (next : Link) : Link
deriving DecidableEq

/-- Model of first.rs `pub struct List { head: Link }`. -/
structure RsList where
  head : Link
deriving DecidableEq

/-- Model of first.rs `List::new`. -/
def new : RsList := ⟨Link.Empty⟩

/-- Model of first.rs `List::push`: the new node takes ownership of the
current head chain and becomes the head. -/
def push (l : RsList) (elem : Int) : RsList :=
  ⟨Link.More elem l.head⟩

/-- Model of first.rs `List::pop`: `mem::replace` takes the head out
(leaving `Empty`); on `More` the successor chain becomes the new head and
the element is returned. -/
def pop (l : RsList) : Option Int × RsList :=
  match l.head with
  | Link.Empty => (none, ⟨Link.Empty⟩)
  | Link.More e next => (some e, ⟨next⟩)

/-- Push each element of `xs` in order (left to right). -/
def pushAll (l : RsList) (xs : List Int) : RsList :=
  xs.foldl push l

/-- Call `pop` a given number of times, collecting the results in call
order together with the final list. -/
def popN : RsList → Nat → List (Option Int) × RsList
  | l, 0 => ([], l)
  | l, n + 1 =>
    let p := pop l
    let q := popN p.2 n
    (p.1 :: q.1, q.2)

/-- The elements stored in a chain, head first. -/
def Link.toList : Link → List Int
  | Link.Empty => []
  | Link.More e next => e :: next.toList

end First

namespace Second

variable {α : Type}

/-- Model of second.rs `struct Node<T> { elem: T, next: Link<T> }` with
`type Link<T> = Option<Box<Node<T>>>` (the box is identity in the model). -/
inductive Node (α : Type) : Type where
  | mk (elem : α) (next : Option (Node α)) : Node α

/-- Field `elem` of a node. -/
def Node.elem : Node α → α
  | Node.mk e _ => e

/-- Field `next` of a node. -/
def Node.next : Node α → Option (Node α)
  | Node.mk _ n => n

/-- Model of second.rs `pub struct List<T> { head: Link<T> }`. -/
structure RsList (α : Type) where
  head : Option (Node α)

/-- Model of second.rs `List::new`. -/
def new : RsList α := ⟨none⟩

/-- Model of second.rs `List::push`: the new node takes the current head
chain as its `next` (via `take`) and becomes the head. -/
def push (l : RsList α) (elem : α) : RsList α :=
  ⟨some (Node.mk elem l.head)⟩

/-- Model of second.rs `List::pop`: take the head; on `Some` the successor
becomes the new head and the element is returned. -/
def pop (l : RsList α) : Option α × RsList α :=
  match l.head with
  | none => (none, ⟨none⟩)
  | some n => (some n.elem, ⟨n.next⟩)

/-- Model of second.rs `List::peek`. -/
def peek (l : RsList α) : Option α :=
  l.head.map Node.elem

/-- Model of second.rs `pub struct IntoIter<T>(List<T>)`. -/
structure IntoIter (α : Type) where
  inner : RsList α

/-- Model of second.rs `List::into_iter`. -/
def into_iter (l : RsList α) : IntoIter α :=
  ⟨l⟩

/-- Model of second.rs `impl Iterator for IntoIter`: `next` simply calls
`pop` on the wrapped list. -/
def IntoIter.next (it : IntoIter α) : Option α × IntoIter α :=
  let p := pop it.inner
  (p.1, ⟨p.2⟩)

/-- Push each element of `xs` in order (left to right). -/
def pushAll (l : RsList α) (xs : List α) : RsList α :=
  xs.foldl push l

/-- Call `pop` a given number of times, collecting the results in call
order together with the final list. -/
def popN : RsList α → Nat → List (Option α) × RsList α
  | l, 0 => ([], l)
  | l, n + 1 =>
    let p := pop l
    let q := popN p.2 n
    (p.1 :: q.1, q.2)

/-- The elements stored in a chain, head first. -/
def toList : Option (Node α) → List α
  | none => []
  | some (Node.mk e n) => e :: toList n

/-- One iteration of the `while let` loop in second.rs `impl Drop for
List<T>`: the boxed head node is detached (its `next` is taken out) and
exactly that node is dropped. -/
def dropStep : Option (Node α) → Option (Node α)
  | none => none
  | some n => n.next

/-- The elements freed by the iterative `Drop` loop of second.rs, one per
loop iteration, in the order the loop frees them. -/
def dropTrace : Option (Node α) → List α
  | none => []
  | some (Node.mk e n) => e :: dropTrace n

end Second

namespace Raw

variable {α : Type}

/-- Model of linkedlist.rs `struct Node<T> { front: Link<T>, back: Link<T>,
elem: T }` where `type Link<T> = Option<NonNull<Node<T>>>`; a raw pointer is
modelled as a `Nat` address into an explicit heap. -/
structure Node (α : Type) where
  front : Option Nat
  back : Option Nat
  elem : α
deriving DecidableEq

/-- The heap of currently allocated deque nodes, by address. -/
def Heap (α : Type) : Type :=
  Nat → Option (Node α)

/-- Point update of a heap. -/
def Heap.update (h : Heap α) (a : Nat) (v : Option (Node α)) : Heap α :=
  fun b => if b = a then v else h b

/-- Overwrite the `front` link of the node stored at `a` (models
`(*a.as_ptr()).front = p`). -/
def Heap.setFront (h : Heap α) (a : Nat) (p : Option Nat) : Heap α :=
  fun b => if b = a then (h a).map (fun n => { n with front := p }) else h b

/-- Overwrite the `back` link of the node stored at `a` (models
`(*a.as_ptr()).back = p`). -/
def Heap.setBack (h : Heap α) (a : Nat) (p : Option Nat) : Heap α :=
  fun b => if b = a then (h a).map (fun n => { n with back := p }) else h b

/-- Model of linkedlist.rs `pub struct LinkedList<T> { front, back: Link<T>,
len: usize, _boo: PhantomData<T> }`. The fields `heap`, `nextAddr` and
`freed` are the model of the allocator: `heap` holds the live nodes,
`nextAddr` is the next fresh address (`Box::new` returns it), and `freed`
records, in order, every address whose backing storage has been released
(`Box::from_raw` dropped). -/
structure LinkedList (α : Type) where
  front : Option Nat
  back : Option Nat
  len : Nat
  heap : Heap α
  nextAddr : Nat
  freed : List Nat

/-- Model of linkedlist.rs `LinkedList::new`. -/
def new : LinkedList α :=
  { front := none, back := none, len := 0,
    heap := fun _ => none, nextAddr := 0, freed := [] }

/-- Model of linkedlist.rs `LinkedList::push_front`: allocate a node with
both links absent; if a front exists, link it mutually with the new node,
otherwise also set `back`; the new node becomes `front` and `len` grows. -/
def push_front (s : LinkedList α) (elem : α) : LinkedList α :=
  let a := s.nextAddr
  let h0 := s.heap.update a (some { front := none, back := none, elem := elem })
  match s.front with
  | some old =>
    let h1 := h0.setFront old (some a)
    let h2 := h1.setBack a (some old)
    { front := some a, back := s.back, len := s.len + 1,
      heap := h2, nextAddr := a + 1, freed := s.freed }
  | none =>
    { front := some a, back := some a, len := s.len + 1,
      heap := h0, nextAddr := a + 1, freed := s.freed }

/-- Model of linkedlist.rs `LinkedList::pop_front`: on `None` front return
the empty signal and leave the state unchanged; otherwise take ownership of
the front node via `Box::from_raw` (its storage is released exactly here,
recorded in `freed`), move `front` to its `back` link, clear the new front
node `front` link or clear `back` when the deque became empty, and
decrement `len`. Reading a dangling address (absent from the heap) cannot
happen on states reachable from `new`; the model returns the state
unchanged in that junk case. -/
def pop_front (s : LinkedList α) : Option α × LinkedList α :=
  match s.front with
  | none => (none, s)
  | some a =>
    match s.heap a with
    | none => (none, s)
    | some n =>
      let h0 := s.heap.update a none
      match n.back with
      | some b =>
        (some n.elem,
          { front := some b, back := s.back, len := s.len - 1,
            heap := h0.setFront b none, nextAddr := s.nextAddr,
            freed := a :: s.freed })
      | none =>
        (some n.elem,
          { front := none, back := none, len := s.len - 1,
            heap := h0, nextAddr := s.nextAddr, freed := a :: s.freed })

/-- Model of linkedlist.rs `LinkedList::len`. -/
def len (s : LinkedList α) : Nat :=
  s.len

/-- Model of dropping the deque: linkedlist.rs defines no `Drop`
implementation for `LinkedList`, and dropping its fields (two
`Option<NonNull>` values, a `usize` and a `PhantomData`) releases no node
storage, so the heap of live nodes and the release ledger are returned
unchanged. -/
def dropRaw (s : LinkedList α) : Heap α × List Nat :=
  (s.heap, s.freed)

/-- The public operations of the deque. -/
inductive Op (α : Type) where
  | push (x : α) : Op α
  | pop : Op α

/-- Apply one operation to the state. -/
def stepOp (s : LinkedList α) : Op α → LinkedList α
  | Op.push x => push_front s x
  | Op.pop => (pop_front s).2

/-- Run a sequence of operations from the empty deque. -/
def run (ops : List (Op α)) : LinkedList α :=
  ops.foldl stepOp new

/-- The addresses of a well-formed chain, front to back: the node at each
address is live, its `front` link is the preceding address (`prev` for the
first node), and its `back` link is the following address (absent for the
last node). -/
def chainOK (h : Heap α) : Option Nat → List Nat → Prop
  | _, [] => True
  | prev, a :: rest =>
    (match h a with
     | none => False
     | some n => n.front = prev ∧ n.back = rest.head?) ∧
    chainOK h (some a) rest

/-- Every two adjacent nodes of the chain point at each other: the `back`
link of the front-ward node names the back-ward node, and the `front` link
of the back-ward node names the front-ward one. -/
def adjacentOK (h : Heap α) : List Nat → Prop
  | a :: b :: rest =>
    (∃ na nb, h a = some na ∧ h b = some nb ∧
      na.back = some b ∧ nb.front = some a) ∧
    adjacentOK h (b :: rest)
  | _ => True

/-- The addresses reachable from `o` by following `back` links, cut off by
`fuel`. -/
def reach (h : Heap α) : Nat → Option Nat → List Nat
  | 0, _ => []
  | _ + 1, none => []
  | fuel + 1, some a =>
    match h a with
    | none => []
    | some n => a :: reach h fuel n.back

/-- Full invariant of the deque model: some list of addresses forms the
chain from `front` to `back`, `len` counts it, addresses are distinct and
below the allocation bound, the heap holds exactly the chain, and `freed`
holds exactly the previously allocated addresses that are no longer live,
each at most once. -/
def Inv (s : LinkedList α) : Prop :=
  ∃ addrs : List Nat,
    chainOK s.heap none addrs ∧
    s.front = addrs.head? ∧
    s.back = addrs.getLast? ∧
    s.len = addrs.length ∧
    addrs.Nodup ∧
    (∀ a ∈ addrs, a < s.nextAddr) ∧
    (∀ a, (s.heap a).isSome ↔ a ∈ addrs) ∧
    (∀ a, a ∈ s.freed ↔ (a < s.nextAddr ∧ a ∉ addrs)) ∧
    s.freed.Nodup

end Raw

namespace Third

variable {α : Type}

/-- Model of third.rs `struct Node<T> { elem: T, next: Link<T> }` with
`type Link<T> = Option<Rc<Node<T>>>`; the `Rc` pointer is a `Nat` address
into an explicit reference-counted heap. -/
structure Node (α : Type) where
  elem : α
  next : Option Nat
deriving DecidableEq

/-- The reference-counted heap: each allocated address holds its node
together with the strong count of the `Rc` allocation. -/
def Mem (α : Type) : Type :=
  Nat → Option (Node α × Nat)

/-- Point update of a reference-counted heap. -/
def Mem.update (m : Mem α) (a : Nat) (v : Option (Node α × Nat)) : Mem α :=
  fun b => if b = a then v else m b

/-- Allocation state threaded through the operations: the heap and the next
fresh address. -/
structure St (α : Type) where
  mem : Mem α
  nextAddr : Nat

/-- Model of third.rs `pub struct List<T> { head: Link<T> }`. -/
structure RsList where
  head : Option Nat
deriving DecidableEq

/-- Strong count of the allocation at `a` (`0` when nothing is allocated
there). -/
def rcOf (m : Mem α) (a : Nat) : Nat :=
  match m a with
  | none => 0
  | some (_, c) => c

/-- Model of `Option::<Rc<Node<T>>>::clone`: increment the strong count of
the shared allocation; no node data is copied. -/
def cloneLink (s : St α) (o : Option Nat) : St α :=
  match o with
  | none => s
  | some a =>
    match s.mem a with
    | none => s
    | some (n, c) => { s with mem := s.mem.update a (some (n, c + 1)) }

/-- Model of third.rs `List::new`. -/
def new : RsList := ⟨none⟩

/-- The empty allocation state. -/
def emptySt : St α := ⟨fun _ => none, 0⟩

/-- Model of third.rs `List::prepend`: allocate a fresh `Rc` node (strong
count 1) holding `elem` whose `next` clones, without copying, the current
head link; the receiver list value is left untouched. -/
def prepend (s : St α) (l : RsList) (elem : α) : St α × RsList :=
  let s1 := cloneLink s l.head
  let a := s1.nextAddr
  ({ mem := s1.mem.update a (some (⟨elem, l.head⟩, 1)), nextAddr := a + 1 },
   ⟨some a⟩)

/-- Model of third.rs `List::tail`: the new list shares (clones) the head
node `next` link when the list is non-empty, and is empty otherwise.
Reading a dangling address cannot happen on valid states; the model returns
the empty list in that junk case. -/
def tail (s : St α) (l : RsList) : St α × RsList :=
  match l.head with
  | none => (s, ⟨none⟩)
  | some a =>
    match s.mem a with
    | none => (s, ⟨none⟩)
    | some (n, _) => (cloneLink s n.next, ⟨n.next⟩)

/-- Model of third.rs `List::head`: the element of the head node, if any. -/
def head (s : St α) (l : RsList) : Option α :=
  match l.head with
  | none => none
  | some a =>
    match s.mem a with
    | none => none
    | some (n, _) => some n.elem

/-- One iteration of the `while let` loop of third.rs `impl Drop for List`:
`Rc::try_unwrap` succeeds exactly when the strong count is 1, in which case
the allocation is freed and the walk moves to the node `next`; otherwise
the `Err` handle is dropped, which decrements the strong count, and the
loop breaks. The fuel only bounds the walk: any fuel at least the chain
length yields the exact loop behaviour. -/
def dropLoop : Nat → St α → Option Nat → St α
  | 0, s, _ => s
  | _ + 1, s, none => s
  | fuel + 1, s, some a =>
    match s.mem a with
    | none => s
    | some (n, c) =>
      if c = 1 then
        dropLoop fuel { s with mem := s.mem.update a none } n.next
      else
        { s with mem := s.mem.update a (some (n, c - 1)) }

/-- Model of dropping a `List` value: run the drop loop from the head with
ample fuel (every address of a valid chain is below `nextAddr`, and chain
addresses are distinct, so `nextAddr` exceeds every chain length). -/
def dropList (s : St α) (l : RsList) : St α :=
  dropLoop s.nextAddr s l.head

/-- Model of third.rs `pub struct IntoIter<T>(List<T>)`. -/
structure IntoIter where
  inner : RsList

/-- Model of third.rs `List::into_iter`. -/
def into_iter (l : RsList) : IntoIter :=
  ⟨l⟩

/-- Model of third.rs `impl Iterator for IntoIter`: take the head; when its
strong count is 1, `Rc::try_unwrap` wins, the allocation is freed, its
`next` is taken as the new head and the element is yielded; otherwise the
`Err` handle is dropped (count decremented), the head stays empty and the
iterator yields nothing. -/
def IntoIter.next (s : St α) (it : IntoIter) : St α × Option α × IntoIter :=
  match it.inner.head with
  | none => (s, none, ⟨⟨none⟩⟩)
  | some a =>
    match s.mem a with
    | none => (s, none, ⟨⟨none⟩⟩)
    | some (n, c) =>
      if c = 1 then
        ({ s with mem := s.mem.update a none }, some n.elem, ⟨⟨n.next⟩⟩)
      else
        ({ s with mem := s.mem.update a (some (n, c - 1)) }, none, ⟨⟨none⟩⟩)

/-- Drive the by-value iterator until it yields nothing (or fuel runs out),
collecting the yielded elements in order. -/
def runIntoIter : Nat → St α → IntoIter → St α × List α
  | 0, s, _ => (s, [])
  | fuel + 1, s, it =>
    let p := IntoIter.next s it
    match p.2.1 with
    | none => (p.1, [])
    | some x =>
      let q := runIntoIter fuel p.1 p.2.2
      (q.1, x :: q.2)

/-- Model of third.rs `pub struct IterMut<T> { next: Option<&mut Node<T>> }`;
the mutable borrow is modelled by the address of the borrowed node. -/
structure IterMut where
  next : Option Nat

/-- Model of third.rs `List::iter_mut`: `Rc::get_mut` on the head returns a
mutable borrow exactly when the strong count is 1; otherwise the iterator
starts exhausted. -/
def iter_mut (s : St α) (l : RsList) : IterMut :=
  match l.head with
  | none => ⟨none⟩
  | some a => if rcOf s.mem a = 1 then ⟨some a⟩ else ⟨none⟩

/-- Model of third.rs `impl Iterator for IterMut`: yield the borrow held in
the cursor, if any, and advance to the following node only when
`Rc::get_mut` on it succeeds, that is when its strong count is 1; nothing
in the heap is modified or copied. -/
def nextMut (s : St α) (it : IterMut) : Option Nat × IterMut :=
  match it.next with
  | none => (none, ⟨none⟩)
  | some a =>
    match s.mem a with
    | none => (some a, ⟨none⟩)
    | some (n, _) =>
      match n.next with
      | none => (some a, ⟨none⟩)
      | some b => (some a, if rcOf s.mem b = 1 then ⟨some b⟩ else ⟨none⟩)

/-- Drive the mutable iterator until it yields nothing (or fuel runs out),
collecting the addresses of the yielded mutable borrows in order. -/
def runIterMut : Nat → St α → IterMut → List Nat
  | 0, _, _ => []
  | fuel + 1, s, it =>
    let p := nextMut s it
    match p.1 with
    | none => []
    | some a => a :: runIterMut fuel s p.2

/-- Model of the idiom `list = list.prepend(x)` iterated over `xs`: each
step prepends and then drops the previous list binding. -/
def prependAll (s : St α) (l : RsList) : List α → St α × RsList
  | [] => (s, l)
  | x :: xs =>
    let p := prepend s l x
    let s2 := dropList p.1 l
    prependAll s2 p.2 xs

/-- The addresses of a chain in the reference-counted heap, head first:
the link points at the first address, each listed address is allocated, and
each node `next` link continues the chain. -/
def chain3 (m : Mem α) : Option Nat → List Nat → Prop
  | none, [] => True
  | none, _ :: _ => False
  | some _, [] => False
  | some a, b :: rest =>
    a = b ∧
    match m a with
    | none => False
    | some (n, _) => chain3 m n.next rest

/-- The elements of the longest chain prefix whose nodes all have strong
count exactly 1 (the nodes `Rc::try_unwrap` can win on). -/
def uniquePrefixElems (m : Mem α) : List Nat → List α
  | [] => []
  | a :: rest =>
    match m a with
    | none => []
    | some (n, c) => if c = 1 then n.elem :: uniquePrefixElems m rest else []

/-- A fully private list: the chain addresses are distinct, every strong
count is 1, the heap holds exactly the chain, and every address is below
the allocation bound. -/
def GoodChain (s : St α) (l : RsList) (addrs : List Nat) : Prop :=
  chain3 s.mem l.head addrs ∧ addrs.Nodup ∧
  (∀ a ∈ addrs, rcOf s.mem a = 1) ∧
  (∀ a, (s.mem a).isSome ↔ a ∈ addrs) ∧
  (∀ a ∈ addrs, a < s.nextAddr)

end Third

namespace Scenario

/-- The state and list after `List::new().prepend(1)`. -/
def p1 : Third.St Nat × Third.RsList := Third.prepend Third.emptySt Third.new 1

/-- After a further `.prepend(2)`. -/
def p2 : Third.St Nat × Third.RsList := Third.prepend p1.1 p1.2 2

/-- After a further `.prepend(3)`. -/
def p3 : Third.St Nat × Third.RsList := Third.prepend p2.1 p2.2 3

/-- After one `.tail()`. -/
def t1 : Third.St Nat × Third.RsList := Third.tail p3.1 p3.2

/-- After two `.tail()`. -/
def t2 : Third.St Nat × Third.RsList := Third.tail t1.1 t1.2

/-- After three `.tail()`. -/
def t3 : Third.St Nat × Third.RsList := Third.tail t2.1 t2.2

/-- After a redundant fourth `.tail()` on the empty list. -/
def t4 : Third.St Nat × Third.RsList := Third.tail t3.1 t3.2

/-- A one-node list `[1]` (node at address 0). -/
def q1 : Third.St Nat × Third.RsList := Third.prepend Third.emptySt Third.new 1

/-- `q1.prepend(2)` — the list `[2, 1]` sharing node 0. -/
def q2 : Third.St Nat × Third.RsList := Third.prepend q1.1 q1.2 2

/-- `q1.prepend(3)` — the list `[3, 1]`, making node 0 shared three ways. -/
def q3 : Third.St Nat × Third.RsList := Third.prepend q2.1 q1.2 3

end Scenario

namespace First

theorem toList_push_int (l : RsList) (x : Int) :
    (push l x).head.toList = x :: l.head.toList := rfl

theorem toList_pushAll_int (xs : List Int) :
    ∀ l : RsList, (pushAll l xs).head.toList = xs.reverse ++ l.head.toList := by
  induction xs with
  | nil => intro l; simp [pushAll]
  | cons x xs ih =>
    intro l
    simp only [pushAll, List.foldl_cons, List.reverse_cons]
    have h := ih (push l x)
    simp only [pushAll] at h
    rw [h, toList_push_int]
    simp

theorem popN_exact_int :
    ∀ (c : List Int) (l : RsList), l.head.toList = c →
      (popN l c.length).1 = c.map some ∧ (popN l c.length).2.head = Link.Empty := by
  intro c
  induction c with
  | nil =>
    intro l h
    cases l with
    | mk head =>
      cases head with
      | Empty => simp [popN]
      | More e next => simp [Link.toList] at h
  | cons x xs ih =>
    intro l h
    cases l with
    | mk head =>
      cases head with
      | Empty => simp [Link.toList] at h
      | More e next =>
        simp only [Link.toList, List.cons.injEq] at h
        obtain ⟨he, hn⟩ := h
        have := ih ⟨next⟩ hn
        simp only [List.length_cons, popN, pop, List.map_cons]
        refine ⟨?_, this.2⟩
        rw [he, this.1]

end First

namespace Second

variable {α : Type}

theorem toList_push (l : RsList α) (x : α) :
    toList (push l x).head = x :: toList l.head := by
  simp [push, toList]

theorem toList_pushAll (xs : List α) :
    ∀ l : RsList α, toList (pushAll l xs).head = xs.reverse ++ toList l.head := by
  induction xs with
  | nil => intro l; simp [pushAll]
  | cons x xs ih =>
    intro l
    simp only [pushAll, List.foldl_cons, List.reverse_cons]
    have h := ih (push l x)
    simp only [pushAll] at h
    rw [h, toList_push]
    simp

theorem popN_exact :
    ∀ (c : List α) (l : RsList α), toList l.head = c →
      (popN l c.length).1 = c.map some ∧ (popN l c.length).2.head = none := by
  intro c
  induction c with
  | nil =>
    intro l h
    cases l with
    | mk head =>
      cases head with
      | none => simp [popN]
      | some n => cases n with
        | mk e next => simp [toList] at h
  | cons x xs ih =>
    intro l h
    cases l with
    | mk head =>
      cases head with
      | none => simp [toList] at h
      | some n =>
        cases n with
        | mk e next =>
          simp only [toList, List.cons.injEq] at h
          obtain ⟨he, hn⟩ := h
          have := ih ⟨next⟩ hn
          simp only [List.length_cons, popN, pop, Node.elem, Node.next, List.map_cons]
          refine ⟨?_, this.2⟩
          rw [he, this.1]

theorem dropTrace_eq_toList : ∀ c : Option (Node α), dropTrace c = toList c := by
  intro c
  match c with
  | none => simp [dropTrace, toList]
  | some (Node.mk e n) =>
    simp only [dropTrace, toList, List.cons.injEq]
    exact ⟨trivial, dropTrace_eq_toList n⟩

theorem toList_eq_nil (c : Option (Node α)) : toList c = [] → c = none := by
  intro h
  cases c with
  | none => rfl
  | some n =>
    cases n with
    | mk e next => simp [toList] at h

theorem dropStep_iterate :
    ∀ (c : Option (Node α)) (k : Nat),
      toList (dropStep^[k] c) = (toList c).drop k := by
  intro c k
  induction k generalizing c with
  | zero => simp
  | succ k ih =>
    match c with
    | none =>
      simp only [Function.iterate_succ_apply, dropStep, toList, List.drop_nil]
      rw [ih]
      simp [toList]
    | some (Node.mk e n) =>
      simp only [Function.iterate_succ_apply, dropStep, Node.next, toList]
      rw [ih]
      simp

end Second

namespace Raw

variable {α : Type}

theorem chainOK_nil (h : Heap α) (prev : Option Nat) : chainOK h prev [] :=
  trivial

/-- Introduction rule for `Inv` with the state fields spelled out, so that
proof obligations mention the fields directly. -/
theorem inv_fields (fr bk : Option Nat) (ln : Nat) (hp : Heap α) (na : Nat)
    (fl : List Nat) (addrs : List Nat)
    (h1 : chainOK hp none addrs)
    (h2 : fr = addrs.head?)
    (h3 : bk = addrs.getLast?)
    (h4 : ln = addrs.length)
    (h5 : addrs.Nodup)
    (h6 : ∀ a ∈ addrs, a < na)
    (h7 : ∀ a, (hp a).isSome ↔ a ∈ addrs)
    (h8 : ∀ a, a ∈ fl ↔ (a < na ∧ a ∉ addrs))
    (h9 : fl.Nodup) :
    Inv { front := fr, back := bk, len := ln, heap := hp,
          nextAddr := na, freed := fl } :=
  ⟨addrs, h1, h2, h3, h4, h5, h6, h7, h8, h9⟩

theorem chainOK_cons (h : Heap α) (prev : Option Nat) (a : Nat) (rest : List Nat) :
    chainOK h prev (a :: rest) ↔
      (∃ n, h a = some n ∧ n.front = prev ∧ n.back = rest.head?) ∧
      chainOK h (some a) rest := by
  simp only [chainOK]
  constructor
  · rintro ⟨h1, h2⟩
    refine ⟨?_, h2⟩
    cases hv : h a with
    | none => rw [hv] at h1; exact absurd h1 not_false
    | some n => rw [hv] at h1; exact ⟨n, rfl, h1⟩
  · rintro ⟨⟨n, hv, h1, h2⟩, h3⟩
    refine ⟨?_, h3⟩
    rw [hv]
    exact ⟨h1, h2⟩

/-- A chain is insensitive to heap changes outside its own addresses. -/
theorem chainOK_congr (h h' : Heap α) (addrs : List Nat)
    (hsame : ∀ b ∈ addrs, h' b = h b) :
    ∀ prev, chainOK h prev addrs → chainOK h' prev addrs := by
  induction addrs with
  | nil => intro prev _; trivial
  | cons a rest ih =>
    intro prev hc
    rw [chainOK_cons] at hc
    obtain ⟨⟨n, hv, h1, h2⟩, h3⟩ := hc
    rw [chainOK_cons]
    refine ⟨⟨n, ?_, h1, h2⟩, ih (fun b hb => hsame b (List.mem_cons_of_mem a hb)) (some a) h3⟩
    rw [hsame a (List.mem_cons_self a rest)]
    exact hv

/-- Nodes of a chain are live. -/
theorem chainOK_mem_isSome (h : Heap α) :
    ∀ (addrs : List Nat) (prev : Option Nat), chainOK h prev addrs →
      ∀ a ∈ addrs, (h a).isSome := by
  intro addrs
  induction addrs with
  | nil => intro prev _ a ha; cases ha
  | cons c rest ih =>
    intro prev hc a ha
    rw [chainOK_cons] at hc
    obtain ⟨⟨n, hv, _, _⟩, h3⟩ := hc
    rcases List.mem_cons.mp ha with rfl | ha
    · rw [hv]; rfl
    · exact ih (some c) h3 a ha

/-- A chain yields the mutual-adjacency property. -/
theorem adjacentOK_of_chainOK (h : Heap α) :
    ∀ (addrs : List Nat) (prev : Option Nat), chainOK h prev addrs →
      adjacentOK h addrs := by
  intro addrs
  induction addrs with
  | nil => intro prev _; trivial
  | cons a rest ih =>
    intro prev hc
    rw [chainOK_cons] at hc
    obtain ⟨⟨n, hv, h1, h2⟩, h3⟩ := hc
    cases rest with
    | nil => trivial
    | cons b rest2 =>
      rw [chainOK_cons] at h3
      obtain ⟨⟨m, hvb, hb1, hb2⟩, h4⟩ := h3
      refine ⟨⟨n, m, hv, hvb, ?_, hb1⟩, ?_⟩
      · rw [h2]; rfl
      · exact ih (some a) (by rw [chainOK_cons]; exact ⟨⟨m, hvb, hb1, hb2⟩, h4⟩)

/-- With the right fuel, `reach` recovers the chain addresses. -/
theorem reach_of_chainOK (h : Heap α) :
    ∀ (addrs : List Nat) (prev : Option Nat), chainOK h prev addrs →
      reach h addrs.length addrs.head? = addrs := by
  intro addrs
  induction addrs with
  | nil => intro prev _; rfl
  | cons a rest ih =>
    intro prev hc
    rw [chainOK_cons] at hc
    obtain ⟨⟨n, hv, h1, h2⟩, h3⟩ := hc
    simp only [List.length_cons, List.head?_cons, reach, hv, h2]
    rw [ih (some a) h3]

theorem update_apply (h : Heap α) (a : Nat) (v : Option (Node α)) (b : Nat) :
    Heap.update h a v b = if b = a then v else h b := rfl

theorem setFront_apply (h : Heap α) (a : Nat) (p : Option Nat) (b : Nat) :
    Heap.setFront h a p b =
      if b = a then (h a).map (fun n => { n with front := p }) else h b := rfl

theorem setBack_apply (h : Heap α) (a : Nat) (p : Option Nat) (b : Nat) :
    Heap.setBack h a p b =
      if b = a then (h a).map (fun n => { n with back := p }) else h b := rfl

/-- The last entry of a non-empty list exists. -/
theorem cons_getLast?_isSome : ∀ (rest : List Nat) (a : Nat),
    ((a :: rest).getLast?).isSome := by
  intro rest
  induction rest with
  | nil => intro a; rfl
  | cons b rest ih =>
    intro a
    rw [List.getLast?_cons_cons]
    exact ih b

/-- `push_front` preserves the deque invariant. -/
theorem inv_push_front (s : LinkedList α) (x : α) (hs : Inv s) :
    Inv (push_front s x) := by
  obtain ⟨addrs, hchain, hfront, hback, hlen, hnodup, hbound, hdom, hfreed, hfnodup⟩ := hs
  cases hf : s.front with
  | none =>
    have haddrs : addrs = [] := by
      cases addrs with
      | nil => rfl
      | cons a rest => rw [hf] at hfront; simp at hfront
    subst haddrs
    have hpush : push_front s x =
        { front := some s.nextAddr, back := some s.nextAddr, len := s.len + 1,
          heap := s.heap.update s.nextAddr
            (some { front := none, back := none, elem := x }),
          nextAddr := s.nextAddr + 1, freed := s.freed } := by
      simp [push_front, hf]
    rw [hpush]
    refine inv_fields _ _ _ _ _ _ [s.nextAddr] ?_ (by simp) (by simp) ?_ (by simp)
      ?_ ?_ ?_ hfnodup
    · rw [chainOK_cons]
      exact ⟨⟨{ front := none, back := none, elem := x },
        by simp [update_apply], rfl, rfl⟩, trivial⟩
    · simp at hlen; simp [hlen]
    · intro a ha
      simp at ha
      omega
    · intro a
      rw [update_apply]
      by_cases hax : a = s.nextAddr
      · simp [hax]
      · simp only [if_neg hax]
        rw [hdom a]
        simp [hax]
    · intro a
      rw [hfreed a]
      simp only [List.not_mem_nil, not_false_iff, and_true, List.mem_singleton]
      omega
  | some old =>
    have haddrs : ∃ rest, addrs = old :: rest := by
      cases addrs with
      | nil => rw [hf] at hfront; simp at hfront
      | cons a rest =>
        rw [hf] at hfront
        simp at hfront
        exact ⟨rest, by rw [hfront]⟩
    obtain ⟨rest, haddrs⟩ := haddrs
    subst haddrs
    have holdlt : old < s.nextAddr := hbound old (List.mem_cons_self _ _)
    have holdne : old ≠ s.nextAddr := by omega
    have hfresh : s.nextAddr ∉ old :: rest := by
      intro hmem
      have := hbound _ hmem
      omega
    obtain ⟨⟨nold, hvold, hfold, hbold⟩, hrest⟩ := (chainOK_cons _ _ _ _).mp hchain
    have hpush : push_front s x =
        { front := some s.nextAddr, back := s.back, len := s.len + 1,
          heap := ((s.heap.update s.nextAddr
            (some { front := none, back := none, elem := x })).setFront old
              (some s.nextAddr)).setBack s.nextAddr (some old),
          nextAddr := s.nextAddr + 1, freed := s.freed } := by
      simp [push_front, hf]
    rw [hpush]
    set h2 := ((s.heap.update s.nextAddr
      (some { front := none, back := none, elem := x })).setFront old
        (some s.nextAddr)).setBack s.nextAddr (some old) with hh2
    have hv_new : h2 s.nextAddr =
        some { front := none, back := some old, elem := x } := by
      rw [hh2, setBack_apply]
      simp only [if_pos rfl]
      rw [setFront_apply, if_neg (Ne.symm holdne), update_apply, if_pos rfl]
      rfl
    have hv_old : h2 old = some { nold with front := some s.nextAddr } := by
      rw [hh2, setBack_apply, if_neg holdne, setFront_apply, if_pos rfl,
        update_apply, if_neg holdne, hvold]
      rfl
    have hv_other : ∀ b, b ≠ s.nextAddr → b ≠ old → h2 b = s.heap b := by
      intro b hb1 hb2
      rw [hh2, setBack_apply, if_neg hb1, setFront_apply, if_neg hb2,
        update_apply, if_neg hb1]
    refine inv_fields _ _ _ _ _ _ (s.nextAddr :: old :: rest) ?_ rfl ?_ ?_ ?_ ?_ ?_
      ?_ hfnodup
    · rw [chainOK_cons]
      refine ⟨⟨_, hv_new, rfl, by simp⟩, ?_⟩
      rw [chainOK_cons]
      refine ⟨⟨_, hv_old, rfl, by simpa using hbold⟩, ?_⟩
      have hrest' : ∀ b ∈ rest, h2 b = s.heap b := by
        intro b hb
        have hb1 : b ≠ s.nextAddr := by
          intro hcon; exact hfresh (hcon ▸ List.mem_cons_of_mem _ hb)
        have hb2 : b ≠ old := by
          intro hcon
          rw [List.nodup_cons] at hnodup
          exact hnodup.1 (hcon ▸ hb)
        exact hv_other b hb1 hb2
      exact chainOK_congr s.heap h2 rest hrest' (some old) hrest
    · rw [hback, List.getLast?_cons_cons]
    · rw [hlen]
      simp
    · rw [List.nodup_cons]
      exact ⟨hfresh, hnodup⟩
    · intro a ha
      rcases List.mem_cons.mp ha with rfl | ha
      · omega
      · have := hbound a ha
        omega
    · intro a
      by_cases ha1 : a = s.nextAddr
      · subst ha1
        simp [hv_new]
      · by_cases ha2 : a = old
        · subst ha2
          simp [hv_old, List.mem_cons]
        · rw [hv_other a ha1 ha2, hdom a]
          simp [List.mem_cons, ha1]
    · intro a
      rw [hfreed a]
      simp only [List.mem_cons, not_or]
      constructor
      · rintro ⟨h1, h2, h3⟩
        exact ⟨by omega, by omega, h2, h3⟩
      · rintro ⟨h1, h2, h3, h4⟩
        exact ⟨by omega, h3, h4⟩

/-- `pop_front` preserves the deque invariant. -/
theorem inv_pop_front (s : LinkedList α) (hs : Inv s) :
    Inv (pop_front s).2 := by
  obtain ⟨addrs, hchain, hfront, hback, hlen, hnodup, hbound, hdom, hfreed, hfnodup⟩ := hs
  cases hf : s.front with
  | none =>
    have hpop : (pop_front s).2 = s := by simp [pop_front, hf]
    rw [hpop]
    exact ⟨addrs, hchain, hfront, hback, hlen, hnodup, hbound, hdom, hfreed, hfnodup⟩
  | some a =>
    have haddrs : ∃ rest, addrs = a :: rest := by
      cases addrs with
      | nil => rw [hf] at hfront; simp at hfront
      | cons c rest =>
        rw [hf] at hfront
        simp at hfront
        exact ⟨rest, by rw [hfront]⟩
    obtain ⟨rest, haddrs⟩ := haddrs
    subst haddrs
    obtain ⟨⟨n, hv, hfn, hbn⟩, hrest⟩ := (chainOK_cons _ _ _ _).mp hchain
    have halt : a < s.nextAddr := hbound a (List.mem_cons_self _ _)
    have hanotrest : a ∉ rest := (List.nodup_cons.mp hnodup).1
    have hanotfreed : a ∉ s.freed := by
      intro hcon
      exact ((hfreed a).mp hcon).2 (List.mem_cons_self _ _)
    cases hrest_shape : rest with
    | nil =>
      subst hrest_shape
      have hbnone : n.back = none := by simpa using hbn
      have hpop : (pop_front s).2 =
          { front := none, back := none, len := s.len - 1,
            heap := s.heap.update a none, nextAddr := s.nextAddr,
            freed := a :: s.freed } := by
        simp [pop_front, hf, hv, hbnone]
      rw [hpop]
      refine inv_fields _ _ _ _ _ _ [] trivial rfl rfl ?_ List.nodup_nil
        (by intro b hb; cases hb) ?_ ?_ ?_
      · simp at hlen
        simp [hlen]
      · intro b
        rw [update_apply]
        by_cases hb : b = a
        · simp [hb]
        · simp only [if_neg hb]
          rw [hdom b]
          simp [hb]
      · intro b
        simp only [List.mem_cons, List.not_mem_nil, not_false_iff, and_true]
        constructor
        · rintro (rfl | hb)
          · exact halt
          · exact ((hfreed b).mp hb).1
        · intro hb
          by_cases hbeq : b = a
          · exact Or.inl hbeq
          · refine Or.inr ((hfreed b).mpr ⟨hb, ?_⟩)
            simp [hbeq]
      · rw [List.nodup_cons]
        exact ⟨hanotfreed, hfnodup⟩
    | cons b rest2 =>
      subst hrest_shape
      have hbsome : n.back = some b := by simpa using hbn
      obtain ⟨⟨m, hvb, hfb, hbb⟩, hrest2⟩ := (chainOK_cons _ _ _ _).mp hrest
      have hbnea : b ≠ a := by
        intro hcon
        exact hanotrest (hcon ▸ List.mem_cons_self _ _)
      have hbnotrest2 : b ∉ rest2 := (List.nodup_cons.mp (List.nodup_cons.mp hnodup).2).1
      have hpop : (pop_front s).2 =
          { front := some b, back := s.back, len := s.len - 1,
            heap := (s.heap.update a none).setFront b none,
            nextAddr := s.nextAddr, freed := a :: s.freed } := by
        simp [pop_front, hf, hv, hbsome]
      rw [hpop]
      set h3 := (s.heap.update a none).setFront b none with hh3
      have hv_b : h3 b = some { m with front := none } := by
        rw [hh3, setFront_apply, if_pos rfl, update_apply, if_neg hbnea, hvb]
        rfl
      have hv_a : h3 a = none := by
        rw [hh3, setFront_apply, if_neg (Ne.symm hbnea), update_apply, if_pos rfl]
      have hv_other : ∀ c, c ≠ a → c ≠ b → h3 c = s.heap c := by
        intro c hc1 hc2
        rw [hh3, setFront_apply, if_neg hc2, update_apply, if_neg hc1]
      refine inv_fields _ _ _ _ _ _ (b :: rest2) ?_ rfl ?_ ?_
        ((List.nodup_cons.mp hnodup).2) ?_ ?_ ?_ ?_
      · rw [chainOK_cons]
        refine ⟨⟨_, hv_b, rfl, by simpa using hbb⟩, ?_⟩
        have hrest' : ∀ c ∈ rest2, h3 c = s.heap c := by
          intro c hc
          have hc1 : c ≠ a := by
            intro hcon
            exact hanotrest (hcon ▸ List.mem_cons_of_mem _ hc)
          have hc2 : c ≠ b := by
            intro hcon
            exact hbnotrest2 (hcon ▸ hc)
          exact hv_other c hc1 hc2
        exact chainOK_congr s.heap h3 rest2 hrest' (some b) hrest2
      · rw [hback, List.getLast?_cons_cons]
      · simp only [List.length_cons] at hlen ⊢
        omega
      · intro c hc
        exact hbound c (List.mem_cons_of_mem _ hc)
      · intro c
        by_cases hc1 : c = a
        · subst hc1
          simp only [hv_a, Option.isSome_none, Bool.false_eq_true, false_iff]
          exact hanotrest
        · by_cases hc2 : c = b
          · subst hc2
            simp [hv_b, List.mem_cons]
          · rw [hv_other c hc1 hc2, hdom c]
            simp [List.mem_cons, hc1]
      · intro c
        simp only [List.mem_cons]
        constructor
        · rintro (rfl | hc)
          · exact ⟨halt, fun hm => hanotrest (List.mem_cons.mpr hm)⟩
          · obtain ⟨hc1, hc2⟩ := (hfreed c).mp hc
            exact ⟨hc1, fun hm =>
              hc2 (List.mem_cons_of_mem _ (List.mem_cons.mpr hm))⟩
        · rintro ⟨hc1, hc2⟩
          by_cases hceq : c = a
          · exact Or.inl hceq
          · refine Or.inr ((hfreed c).mpr ⟨hc1, ?_⟩)
            intro hm
            exact (List.mem_cons.mp hm).elim hceq
              (fun hm2 => hc2 (List.mem_cons.mp hm2))
      · rw [List.nodup_cons]
        exact ⟨hanotfreed, hfnodup⟩

/-- The invariant holds on every state reachable from the empty deque. -/
theorem inv_run (ops : List (Op α)) : Inv (run ops) := by
  have hnew : Inv (new (α := α)) := by
    refine ⟨[], trivial, rfl, rfl, rfl, List.nodup_nil, ?_, ?_, ?_, List.nodup_nil⟩
    · intro a ha; cases ha
    · intro a; simp [new]
    · intro a; simp [new]
  have main : ∀ (l : List (Op α)) (s : LinkedList α), Inv s →
      Inv (List.foldl stepOp s l) := by
    intro l
    induction l with
    | nil => intro s hs; exact hs
    | cons op l ih =>
      intro s hs
      simp only [List.foldl_cons]
      refine ih (stepOp s op) ?_
      cases op with
      | push x => exact inv_push_front s x hs
      | pop => exact inv_pop_front s hs
  exact main ops new hnew

end Raw

namespace Third

variable {α : Type}

theorem update3_apply (m : Mem α) (a : Nat) (v : Option (Node α × Nat)) (b : Nat) :
    Mem.update m a v b = if b = a then v else m b := rfl

theorem chain3_none (m : Mem α) (addrs : List Nat) :
    chain3 m none addrs ↔ addrs = [] := by
  cases addrs with
  | nil => simp [chain3]
  | cons a rest => simp [chain3]

theorem chain3_some (m : Mem α) (a : Nat) (addrs : List Nat) :
    chain3 m (some a) addrs ↔
      ∃ rest, addrs = a :: rest ∧
        ∃ n c, m a = some (n, c) ∧ chain3 m n.next rest := by
  cases addrs with
  | nil => simp [chain3]
  | cons b rest =>
    constructor
    · intro hc
      simp only [chain3] at hc
      obtain ⟨h1, h2⟩ := hc
      cases hv : m a with
      | none => rw [hv] at h2; exact absurd h2 not_false
      | some p =>
        obtain ⟨n2, c2⟩ := p
        rw [hv] at h2
        exact ⟨rest, by rw [h1], n2, c2, rfl, h2⟩
    · rintro ⟨rest2, heq, n, c, hv, h⟩
      injection heq with h1 h2
      subst h1
      subst h2
      simp only [chain3]
      refine ⟨by trivial, ?_⟩
      rw [hv]
      exact h

/-- A chain only looks at the node parts of the heap entries at its own
addresses. -/
theorem chain3_congr (m m' : Mem α) (addrs : List Nat)
    (hsame : ∀ b ∈ addrs, (m' b).map Prod.fst = (m b).map Prod.fst) :
    ∀ o, chain3 m o addrs → chain3 m' o addrs := by
  induction addrs with
  | nil =>
    intro o hc
    rcases o with _ | a
    · trivial
    · exact absurd hc (by simp [chain3])
  | cons b rest ih =>
    intro o hc
    rcases o with _ | a
    · exact absurd hc (by simp [chain3])
    · rw [chain3_some] at hc
      obtain ⟨rest2, heq, n, c, hv, h⟩ := hc
      injection heq with h1 h2
      subst h1
      subst h2
      rw [chain3_some]
      have hmap := hsame b (List.mem_cons_self _ _)
      rw [hv] at hmap
      cases hv' : m' b with
      | none => rw [hv'] at hmap; simp at hmap
      | some p =>
        obtain ⟨n2, c2⟩ := p
        rw [hv'] at hmap
        simp at hmap
        refine ⟨rest, rfl, n2, c2, rfl, ?_⟩
        rw [hmap]
        exact ih (fun x hx => hsame x (List.mem_cons_of_mem _ hx)) n.next h

/-- The unique-prefix elements only depend on the heap at the chain
addresses. -/
theorem uniquePrefixElems_congr (m m' : Mem α) :
    ∀ addrs : List Nat, (∀ b ∈ addrs, m' b = m b) →
      uniquePrefixElems m' addrs = uniquePrefixElems m addrs := by
  intro addrs
  induction addrs with
  | nil => intro _; rfl
  | cons a rest ih =>
    intro hsame
    simp only [uniquePrefixElems, hsame a (List.mem_cons_self _ _)]
    cases m a with
    | none => rfl
    | some p =>
      by_cases hc : p.2 = 1
      · simp only [hc, if_pos rfl]
        rw [ih (fun b hb => hsame b (List.mem_cons_of_mem _ hb))]
      · simp [hc]

/-- Distinct addresses all below a bound are at most the bound in number. -/
theorem nodup_bound_length (l : List Nat) (n : Nat) (hnd : l.Nodup)
    (hb : ∀ a ∈ l, a < n) : l.length ≤ n := by
  classical
  have hsub : l.toFinset ⊆ Finset.range n := by
    intro a ha
    rw [List.mem_toFinset] at ha
    rw [Finset.mem_range]
    exact hb a ha
  have hcard := Finset.card_le_card hsub
  rw [Finset.card_range] at hcard
  rwa [List.toFinset_card_of_nodup hnd] at hcard

/-- Specification of the mutable iterator: over a valid chain it yields
exactly the addresses of the maximal chain prefix whose strong counts are
all 1, and nothing further. -/
theorem runIterMut_spec :
    ∀ (addrs : List Nat) (s : St α) (l : RsList),
      chain3 s.mem l.head addrs →
      runIterMut addrs.length s (iter_mut s l) =
        addrs.takeWhile (fun a => rcOf s.mem a == 1) := by
  intro addrs
  induction addrs with
  | nil =>
    intro s l hc
    simp [runIterMut]
  | cons a rest ih =>
    intro s l hc
    cases hl : l.head with
    | none =>
      rw [hl, chain3_none] at hc
      exact absurd hc (by simp)
    | some a0 =>
      rw [hl, chain3_some] at hc
      obtain ⟨rest2, heq, n, c, hv, hcrest⟩ := hc
      injection heq with h1 h2
      subst h1
      subst h2
      by_cases hrc : rcOf s.mem a = 1
      · have hmut : iter_mut s l = ⟨some a⟩ := by
          simp [iter_mut, hl, hrc]
        rw [hmut]
        cases hnx : n.next with
        | none =>
          have hrest : rest = [] := by
            rw [hnx, chain3_none] at hcrest
            exact hcrest
          subst hrest
          simp only [List.length_cons, List.length_nil, runIterMut, nextMut,
            hv, hnx]
          simp [List.takeWhile_cons, hrc]
        | some b =>
          have hrest : ∃ rest3, rest = b :: rest3 := by
            rw [hnx, chain3_some] at hcrest
            obtain ⟨rest3, heq2, _⟩ := hcrest
            exact ⟨rest3, heq2⟩
          obtain ⟨rest3, hrest⟩ := hrest
          have hcursor : nextMut s ⟨some a⟩ =
              (some a, if rcOf s.mem b = 1 then ⟨some b⟩ else ⟨none⟩) := by
            simp [nextMut, hv, hnx]
          have hiter : (if rcOf s.mem b = 1 then (⟨some b⟩ : IterMut)
              else ⟨none⟩) = iter_mut s ⟨some b⟩ := by
            simp [iter_mut]
          have hih := ih s ⟨some b⟩ (by rw [hnx] at hcrest; exact hcrest)
          simp only [List.length_cons, runIterMut, hcursor]
          rw [hiter, hih]
          simp [List.takeWhile_cons, hrc]
      · have hmut : iter_mut s l = ⟨none⟩ := by
          simp [iter_mut, hl, hrc]
        rw [hmut]
        simp only [List.length_cons, runIterMut, nextMut]
        simp [List.takeWhile_cons, hrc]

/-- Specification of the by-value iterator: over a valid chain of distinct
addresses it yields exactly the elements of the maximal chain prefix whose
strong counts are all 1, and nothing further. -/
theorem runIntoIter_spec :
    ∀ (addrs : List Nat) (s : St α) (l : RsList),
      chain3 s.mem l.head addrs → addrs.Nodup →
      (runIntoIter addrs.length s (into_iter l)).2 =
        uniquePrefixElems s.mem addrs := by
  intro addrs
  induction addrs with
  | nil =>
    intro s l hc hnd
    simp [runIntoIter, uniquePrefixElems]
  | cons a rest ih =>
    intro s l hc hnd
    cases hl : l.head with
    | none =>
      rw [hl, chain3_none] at hc
      exact absurd hc (by simp)
    | some a0 =>
      rw [hl, chain3_some] at hc
      obtain ⟨rest2, heq, n, c, hv, hcrest⟩ := hc
      injection heq with h1 h2
      subst h1
      subst h2
      have hanotrest : a ∉ rest := (List.nodup_cons.mp hnd).1
      by_cases hc1 : c = 1
      · subst hc1
        have hstep : IntoIter.next s (into_iter l) =
            ({ s with mem := s.mem.update a none }, some n.elem, ⟨⟨n.next⟩⟩) := by
          simp [IntoIter.next, into_iter, hl, hv]
        simp only [List.length_cons, runIntoIter, hstep]
        have hchain2 : chain3 (s.mem.update a none) n.next rest := by
          refine chain3_congr s.mem _ rest ?_ n.next hcrest
          intro b hb
          rw [update3_apply, if_neg]
          intro hcon
          exact hanotrest (hcon ▸ hb)
        have hih := ih { s with mem := s.mem.update a none } ⟨n.next⟩
          hchain2 (List.nodup_cons.mp hnd).2
        simp only [into_iter] at hih
        simp only [hih]
        have hsame : uniquePrefixElems (s.mem.update a none) rest =
            uniquePrefixElems s.mem rest := by
          refine uniquePrefixElems_congr s.mem _ rest ?_
          intro b hb
          rw [update3_apply, if_neg]
          intro hcon
          exact hanotrest (hcon ▸ hb)
        rw [hsame]
        simp [uniquePrefixElems, hv]
      · have hstep : IntoIter.next s (into_iter l) =
            ({ s with mem := s.mem.update a (some (n, c - 1)) }, none, ⟨⟨none⟩⟩) := by
          simp [IntoIter.next, into_iter, hl, hv, hc1]
        simp only [List.length_cons, runIntoIter, hstep]
        simp [uniquePrefixElems, hv, hc1]

/-- The drop loop on a fully private chain (all strong counts 1) frees
exactly the chain addresses and touches nothing else; `nextAddr` is
unchanged. -/
theorem dropLoop_frees :
    ∀ (addrs : List Nat) (s : St α) (o : Option Nat) (fuel : Nat),
      chain3 s.mem o addrs → addrs.Nodup →
      (∀ a ∈ addrs, rcOf s.mem a = 1) → addrs.length ≤ fuel →
      (∀ b, (dropLoop fuel s o).mem b = if b ∈ addrs then none else s.mem b) ∧
      (dropLoop fuel s o).nextAddr = s.nextAddr := by
  intro addrs
  induction addrs with
  | nil =>
    intro s o fuel hc _ _ _
    have ho : o = none := by
      cases o with
      | none => rfl
      | some a => exact absurd hc (by simp [chain3])
    subst ho
    cases fuel with
    | zero => exact ⟨fun b => by simp [dropLoop], rfl⟩
    | succ f => exact ⟨fun b => by simp [dropLoop], rfl⟩
  | cons a rest ih =>
    intro s o fuel hc hnd hrc hlen
    cases o with
    | none =>
      rw [chain3_none] at hc
      exact absurd hc (by simp)
    | some a0 =>
      rw [chain3_some] at hc
      obtain ⟨rest2, heq, n, c, hv, hcrest⟩ := hc
      injection heq with h1 h2
      subst h1
      subst h2
      have hanotrest : a ∉ rest := (List.nodup_cons.mp hnd).1
      have hc1 : c = 1 := by
        have := hrc a (List.mem_cons_self _ _)
        rw [rcOf, hv] at this
        exact this
      subst hc1
      cases fuel with
      | zero => simp at hlen
      | succ f =>
        have hstep : dropLoop (f + 1) s (some a) =
            dropLoop f { s with mem := s.mem.update a none } n.next := by
          simp [dropLoop, hv]
        rw [hstep]
        have hchain2 : chain3 (s.mem.update a none) n.next rest := by
          refine chain3_congr s.mem _ rest ?_ n.next hcrest
          intro b hb
          rw [update3_apply, if_neg]
          intro hcon
          exact hanotrest (hcon ▸ hb)
        have hrc2 : ∀ b ∈ rest, rcOf (s.mem.update a none) b = 1 := by
          intro b hb
          rw [rcOf, update3_apply, if_neg]
          · exact hrc b (List.mem_cons_of_mem _ hb)
          · intro hcon
            exact hanotrest (hcon ▸ hb)
        have hih := ih { s with mem := s.mem.update a none } n.next f
          hchain2 (List.nodup_cons.mp hnd).2
          (by intro b hb; have := hrc2 b hb; rw [rcOf] at this; rw [rcOf]; exact this)
          (by simp at hlen; omega)
        refine ⟨?_, hih.2⟩
        intro b
        rw [hih.1 b]
        by_cases hba : b = a
        · subst hba
          simp [hanotrest, update3_apply, List.mem_cons]
        · by_cases hbrest : b ∈ rest
          · simp [hbrest, List.mem_cons]
          · have hmem : ¬ b ∈ a :: rest := by
              simp [List.mem_cons, hba, hbrest]
            rw [if_neg hbrest, if_neg hmem]
            show Mem.update s.mem a none b = s.mem b
            rw [update3_apply, if_neg hba]

/-- Introduction rule for `GoodChain` with the state fields spelled out. -/
theorem goodChain_fields (m : Mem α) (na : Nat) (hd : Option Nat)
    (addrs : List Nat)
    (h1 : chain3 m hd addrs)
    (h2 : addrs.Nodup)
    (h3 : ∀ a ∈ addrs, rcOf m a = 1)
    (h4 : ∀ a, (m a).isSome ↔ a ∈ addrs)
    (h5 : ∀ a ∈ addrs, a < na) :
    GoodChain ⟨m, na⟩ ⟨hd⟩ addrs :=
  ⟨h1, h2, h3, h4, h5⟩

/-- One `list = list.prepend(x)` step (prepend, then drop the previous
binding) turns a fully private list into a fully private list with one
more node, the fresh address at the head. -/
theorem good_step (s : St α) (l : RsList) (addrs : List Nat) (x : α)
    (hg : GoodChain s l addrs) :
    GoodChain (dropList (prepend s l x).1 l) (prepend s l x).2
      (s.nextAddr :: addrs) := by
  obtain ⟨hchain, hnd, hrc, hdom, hbound⟩ := hg
  cases hl : l.head with
  | none =>
    have haddrs : addrs = [] := by rw [hl, chain3_none] at hchain; exact hchain
    subst haddrs
    have hprep : prepend s l x =
        ({ mem := s.mem.update s.nextAddr (some (⟨x, none⟩, 1)),
           nextAddr := s.nextAddr + 1 }, ⟨some s.nextAddr⟩) := by
      simp [prepend, cloneLink, hl]
    rw [hprep]
    have hdrop : dropList
        ({ mem := s.mem.update s.nextAddr (some (⟨x, none⟩, 1)),
           nextAddr := s.nextAddr + 1 } : St α) l =
        { mem := s.mem.update s.nextAddr (some (⟨x, none⟩, 1)),
          nextAddr := s.nextAddr + 1 } := by
      rw [dropList, hl]
      rfl
    rw [hdrop]
    refine goodChain_fields _ _ _ _ ?_ (by simp) ?_ ?_ ?_
    · rw [chain3_some]
      refine ⟨[], rfl, ⟨x, none⟩, 1, ?_, by simp [chain3]⟩
      rw [update3_apply, if_pos rfl]
    · intro b hb
      simp only [List.mem_singleton] at hb
      subst hb
      rw [rcOf, update3_apply, if_pos rfl]
    · intro b
      rw [update3_apply]
      by_cases hb : b = s.nextAddr
      · simp [hb]
      · rw [if_neg hb]
        rw [hdom b]
        simp [hb]
    · intro b hb
      simp only [List.mem_singleton] at hb
      subst hb
      omega
  | some a0 =>
    rw [hl] at hchain
    rw [chain3_some] at hchain
    obtain ⟨rest, haddrs, n0, c0, hv0, hcrest⟩ := hchain
    subst haddrs
    have hc0 : c0 = 1 := by
      have := hrc a0 (List.mem_cons_self _ _)
      rw [rcOf, hv0] at this
      exact this
    subst hc0
    have ha0lt : a0 < s.nextAddr := hbound a0 (List.mem_cons_self _ _)
    have hane : a0 ≠ s.nextAddr := by omega
    have ha0notrest : a0 ∉ rest := (List.nodup_cons.mp hnd).1
    have hfresh : s.nextAddr ∉ a0 :: rest := by
      intro hmem
      have := hbound _ hmem
      omega
    have hp1mem : (prepend s l x).1.mem =
        (s.mem.update a0 (some (n0, 2))).update s.nextAddr
          (some (⟨x, some a0⟩, 1)) := by
      simp [prepend, cloneLink, hl, hv0]
    have hp1na : (prepend s l x).1.nextAddr = s.nextAddr + 1 := by
      simp [prepend, cloneLink, hl, hv0]
    have hp2 : (prepend s l x).2 = ⟨some s.nextAddr⟩ := by
      simp [prepend, cloneLink, hl, hv0]
    have hmem_a0 : (prepend s l x).1.mem a0 = some (n0, 2) := by
      rw [hp1mem, update3_apply, if_neg hane, update3_apply, if_pos rfl]
    have hdrop_eq : dropList (prepend s l x).1 l =
        { mem := ((prepend s l x).1.mem).update a0 (some (n0, 1)),
          nextAddr := s.nextAddr + 1 } := by
      rw [dropList, hp1na, hl]
      simp [dropLoop, hmem_a0, hp1na]
    have hfm : ∀ b, (dropList (prepend s l x).1 l).mem b =
        if b = a0 then some (n0, 1)
        else if b = s.nextAddr then some (⟨x, some a0⟩, 1)
        else s.mem b := by
      intro b
      rw [hdrop_eq]
      show ((prepend s l x).1.mem).update a0 (some (n0, 1)) b = _
      rw [update3_apply, hp1mem]
      by_cases hb0 : b = a0
      · simp [hb0]
      · rw [if_neg hb0, if_neg hb0]
        show Mem.update (s.mem.update a0 (some (n0, 2))) s.nextAddr
          (some (⟨x, some a0⟩, 1)) b = _
        rw [update3_apply]
        by_cases hbA : b = s.nextAddr
        · simp [hbA]
        · rw [if_neg hbA, if_neg hbA, update3_apply, if_neg hb0]
    have hfna : (dropList (prepend s l x).1 l).nextAddr = s.nextAddr + 1 := by
      rw [hdrop_eq]
    rw [hp2]
    have hmem_rest : ∀ b ∈ rest, (dropList (prepend s l x).1 l).mem b = s.mem b := by
      intro b hb
      have hb0 : b ≠ a0 := fun hcon => ha0notrest (hcon ▸ hb)
      have hbA : b ≠ s.nextAddr :=
        fun hcon => hfresh (hcon ▸ List.mem_cons_of_mem _ hb)
      rw [hfm b, if_neg hb0, if_neg hbA]
    refine ⟨?_, ?_, ?_, ?_, ?_⟩
    · rw [chain3_some]
      refine ⟨a0 :: rest, rfl, ⟨x, some a0⟩, 1, ?_, ?_⟩
      · rw [hfm s.nextAddr, if_neg (Ne.symm hane), if_pos rfl]
      · rw [chain3_some]
        refine ⟨rest, rfl, n0, 1, ?_, ?_⟩
        · rw [hfm a0, if_pos rfl]
        · refine chain3_congr s.mem _ rest ?_ n0.next hcrest
          intro b hb
          rw [hmem_rest b hb]
    · rw [List.nodup_cons]
      exact ⟨hfresh, hnd⟩
    · intro b hb
      rcases List.mem_cons.mp hb with hbeq | hb2
      · rw [hbeq, rcOf, hfm s.nextAddr, if_neg (Ne.symm hane), if_pos rfl]
      · rcases List.mem_cons.mp hb2 with hbeq | hb3
        · rw [hbeq, rcOf, hfm a0, if_pos rfl]
        · rw [rcOf, hmem_rest b hb3]
          have := hrc b (List.mem_cons_of_mem _ hb3)
          rw [rcOf] at this
          exact this
    · intro b
      by_cases hb0 : b = a0
      · rw [hb0, hfm a0, if_pos rfl]
        simp [List.mem_cons]
      · by_cases hbA : b = s.nextAddr
        · rw [hbA, hfm s.nextAddr, if_neg (hbA ▸ hb0), if_pos rfl]
          simp [List.mem_cons]
        · rw [hfm b, if_neg hb0, if_neg hbA]
          rw [hdom b]
          simp only [List.mem_cons]
          constructor
          · intro h
            rcases h with h | h
            · exact Or.inr (Or.inl h)
            · exact Or.inr (Or.inr h)
          · rintro (h | h | h)
            · exact absurd h hbA
            · exact Or.inl h
            · exact Or.inr h
    · intro b hb
      rw [hfna]
      rcases List.mem_cons.mp hb with rfl | hb
      · omega
      · have := hbound b hb
        omega

/-- Building a list with repeated `list = list.prepend(x)` keeps the list
fully private (all strong counts 1). -/
theorem prependAll_good :
    ∀ (xs : List α) (s : St α) (l : RsList) (addrs : List Nat),
      GoodChain s l addrs →
      ∃ addrs', GoodChain (prependAll s l xs).1 (prependAll s l xs).2 addrs' := by
  intro xs
  induction xs with
  | nil =>
    intro s l addrs hg
    exact ⟨addrs, hg⟩
  | cons x xs ih =>
    intro s l addrs hg
    have hstep := good_step s l addrs x hg
    exact ih (dropList (prepend s l x).1 l) (prepend s l x).2 _ hstep

/-- Dropping a fully private list frees the whole heap. -/
theorem dropList_of_good (s : St α) (l : RsList) (addrs : List Nat)
    (hg : GoodChain s l addrs) : ∀ b, (dropList s l).mem b = none := by
  obtain ⟨hchain, hnd, hrc, hdom, hbound⟩ := hg
  have hlen : addrs.length ≤ s.nextAddr :=
    nodup_bound_length addrs s.nextAddr hnd hbound
  have h := dropLoop_frees addrs s l.head s.nextAddr hchain hnd hrc hlen
  intro b
  show (dropLoop s.nextAddr s l.head).mem b = none
  rw [h.1 b]
  by_cases hbmem : b ∈ addrs
  · simp [hbmem]
  · rw [if_neg hbmem]
    cases hv : s.mem b with
    | none => rfl
    | some p => exact absurd ((hdom b).mp (by rw [hv]; rfl)) hbmem

/-- Every address of a chain is allocated. -/
theorem chain3_mem_isSome (m : Mem α) :
    ∀ (addrs : List Nat) (o : Option Nat), chain3 m o addrs →
      ∀ a ∈ addrs, (m a).isSome := by
  intro addrs
  induction addrs with
  | nil => intro o _ a ha; cases ha
  | cons b rest ih =>
    intro o hc a ha
    cases o with
    | none => exact absurd hc (by simp [chain3])
    | some a0 =>
      rw [chain3_some] at hc
      obtain ⟨rest2, heq, n, c, hv, hcrest⟩ := hc
      injection heq with h1 h2
      subst h1
      subst h2
      rcases List.mem_cons.mp ha with hbeq | ha2
      · rw [hbeq, hv]; rfl
      · exact ih n.next hcrest a ha2

/-- The by-value iterator yields exactly as many elements as the maximal
all-count-1 prefix of the chain is long. -/
theorem uniquePrefixElems_length (m : Mem α) :
    ∀ addrs : List Nat,
      (uniquePrefixElems m addrs).length =
        (addrs.takeWhile (fun a => rcOf m a == 1)).length := by
  intro addrs
  induction addrs with
  | nil => rfl
  | cons a rest ih =>
    rw [List.takeWhile_cons]
    cases hv : m a with
    | none =>
      have hrc : (rcOf m a == 1) = false := by
        rw [rcOf, hv]
        rfl
      simp only [uniquePrefixElems, hv, hrc]
      rfl
    | some p =>
      obtain ⟨n2, c2⟩ := p
      by_cases hc : c2 = 1
      · subst hc
        have hrc : (rcOf m a == 1) = true := by
          rw [rcOf, hv]
          rfl
        simp [uniquePrefixElems, hv, hrc, ih]
      · have hrc : (rcOf m a == 1) = false := by
          rw [rcOf, hv]
          exact beq_eq_false_iff_ne.mpr hc
        simp [uniquePrefixElems, hv, hrc, hc]

/-- Walking the drop loop from an absent link changes nothing. -/
theorem dropLoop_none (f : Nat) (st : St α) : dropLoop f st none = st := by
  cases f with
  | zero => rfl
  | succ f => rfl

end Third

/-- C1: for every sequence of N push operations on an OwnedStack followed
by N pop operations, the pops return the pushed values in strict reverse
order of insertion (LIFO), and the stack ends empty; this holds for the
generic stack of second.rs and for the i32 stack of first.rs. -/
theorem c1_lifo_push_pop (α : Type) (xs : List α) (ys : List Int) :
    (Second.popN (Second.pushAll Second.new xs) xs.length).1 =
      xs.reverse.map some
    ∧ (Second.popN (Second.pushAll Second.new xs) xs.length).2.head = none
    ∧ (First.popN (First.pushAll First.new ys) ys.length).1 =
      ys.reverse.map some := by
  have hto : Second.toList (Second.pushAll Second.new xs).head = xs.reverse := by
    rw [Second.toList_pushAll]
    simp [Second.new, Second.toList]
  have h := Second.popN_exact xs.reverse (Second.pushAll Second.new xs) hto
  rw [List.length_reverse] at h
  have hto1 : (First.pushAll First.new ys).head.toList = ys.reverse := by
    rw [First.toList_pushAll_int]
    simp [First.new, First.Link.toList]
  have h1 := First.popN_exact_int ys.reverse (First.pushAll First.new ys) hto1
  rw [List.length_reverse] at h1
  exact ⟨h.1, h.2, h1.1⟩

/-- C2: after every sequence of push_front and pop_front calls starting
from a new RawDeque, len() equals the number of nodes reachable from front,
front is absent iff back is absent iff len is 0, and the chain of reachable
addresses is a well-formed doubly-linked chain in which every two adjacent
nodes carry mutual previous/next links. -/
theorem c2_deque_invariant (α : Type) (ops : List (Raw.Op α)) :
    ((Raw.run ops).front = none ↔ (Raw.run ops).back = none)
    ∧ ((Raw.run ops).front = none ↔ Raw.len (Raw.run ops) = 0)
    ∧ Raw.len (Raw.run ops) =
        (Raw.reach (Raw.run ops).heap (Raw.run ops).len
          (Raw.run ops).front).length
    ∧ ∃ addrs : List Nat,
        Raw.chainOK (Raw.run ops).heap none addrs
        ∧ Raw.adjacentOK (Raw.run ops).heap addrs
        ∧ (Raw.run ops).front = addrs.head?
        ∧ (Raw.run ops).back = addrs.getLast?
        ∧ Raw.len (Raw.run ops) = addrs.length
        ∧ Raw.reach (Raw.run ops).heap (Raw.run ops).len
            (Raw.run ops).front = addrs := by
  obtain ⟨addrs, h1, h2, h3, h4, h5, h6, h7, h8, h9⟩ := Raw.inv_run ops
  have hreach : Raw.reach (Raw.run ops).heap (Raw.run ops).len
      (Raw.run ops).front = addrs := by
    rw [h4, h2]
    exact Raw.reach_of_chainOK _ addrs none h1
  have hadj := Raw.adjacentOK_of_chainOK _ addrs none h1
  have hfront_nil : (Raw.run ops).front = none ↔ addrs = [] := by
    rw [h2]
    cases addrs with
    | nil => simp
    | cons a rest => simp
  have hback_nil : (Raw.run ops).back = none ↔ addrs = [] := by
    rw [h3]
    cases addrs with
    | nil => simp
    | cons a rest =>
      constructor
      · intro h
        have := Raw.cons_getLast?_isSome rest a
        rw [h] at this
        exact absurd this (by simp)
      · intro h
        exact absurd h (List.cons_ne_nil a rest)
  have hlen_nil : Raw.len (Raw.run ops) = 0 ↔ addrs = [] := by
    show (Raw.run ops).len = 0 ↔ addrs = []
    rw [h4]
    exact List.length_eq_zero
  refine ⟨hfront_nil.trans hback_nil.symm, hfront_nil.trans hlen_nil.symm,
    ?_, addrs, h1, hadj, h2, h3, h4, hreach⟩
  rw [hreach]
  exact h4

/-- C3 counterexample: pushing one element and then dropping the deque
releases nothing — the release ledger stays empty and the node pushed at
address 0 is still allocated after the drop, because linkedlist.rs defines
no Drop implementation; this falsifies the claim that dropping a RawDeque
that still contains nodes releases every remaining node storage. -/
theorem c3_counterexample :
    (Raw.dropRaw (Raw.run [Raw.Op.push (0 : Nat)])).2 = []
    ∧ (Raw.dropRaw (Raw.run [Raw.Op.push (0 : Nat)])).1 0 =
        some { front := none, back := none, elem := 0 } := by
  exact ⟨rfl, rfl⟩

/-- C3 amended: every RawDeque node storage is released at most once, and
exactly the previously allocated addresses that are no longer in the deque
have been released — precisely by the pop_front call that removed them —
while dropping the deque itself releases nothing (the heap of live nodes
and the release ledger are unchanged by the drop, so nodes never popped are
leaked). -/
theorem c3_release_exactly_once_by_pop (α : Type) (ops : List (Raw.Op α)) :
    (Raw.run ops).freed.Nodup
    ∧ (∀ a, a ∈ (Raw.run ops).freed ↔
        (a < (Raw.run ops).nextAddr ∧ (Raw.run ops).heap a = none))
    ∧ Raw.dropRaw (Raw.run ops) = ((Raw.run ops).heap, (Raw.run ops).freed) := by
  obtain ⟨addrs, h1, h2, h3, h4, h5, h6, h7, h8, h9⟩ := Raw.inv_run ops
  refine ⟨h9, ?_, rfl⟩
  intro a
  rw [h8 a]
  have hdom : (Raw.run ops).heap a = none ↔ a ∉ addrs := by
    constructor
    · intro h hmem
      have := (h7 a).mpr hmem
      rw [h] at this
      exact absurd this (by simp)
    · intro h
      cases hv : (Raw.run ops).heap a with
      | none => rfl
      | some n => exact absurd ((h7 a).mp (by rw [hv]; rfl)) h
  rw [hdom]

/-- C4: teardown is iterative, one node per loop iteration. For the
OwnedStack, the Drop loop frees exactly the N pushed nodes, newest first,
one per iteration, and N detach steps empty the chain; for the
SharedPersistentList built by N prepends, the Drop loop frees the entire
heap. -/
theorem c4_iterative_teardown (α : Type) (xs : List α) :
    Second.dropTrace (Second.pushAll Second.new xs).head = xs.reverse
    ∧ (Second.dropTrace (Second.pushAll Second.new xs).head).length = xs.length
    ∧ (∀ k, Second.toList
        (Second.dropStep^[k] (Second.pushAll Second.new xs).head) =
          xs.reverse.drop k)
    ∧ Second.dropStep^[xs.length] (Second.pushAll Second.new xs).head = none
    ∧ (∀ b, (Third.dropList (Third.prependAll Third.emptySt Third.new xs).1
        (Third.prependAll Third.emptySt Third.new xs).2).mem b = none) := by
  have hto : Second.toList (Second.pushAll Second.new xs).head = xs.reverse := by
    rw [Second.toList_pushAll]
    simp [Second.new, Second.toList]
  have htrace : Second.dropTrace (Second.pushAll Second.new xs).head
      = xs.reverse := by
    rw [Second.dropTrace_eq_toList, hto]
  have hiter : ∀ k, Second.toList
      (Second.dropStep^[k] (Second.pushAll Second.new xs).head) =
        xs.reverse.drop k := by
    intro k
    rw [Second.dropStep_iterate, hto]
  have hnil : Second.dropStep^[xs.length] (Second.pushAll Second.new xs).head
      = none := by
    refine Second.toList_eq_nil _ ?_
    rw [hiter xs.length]
    simp
  have hgood0 : Third.GoodChain (Third.emptySt (α := α)) Third.new [] := by
    refine ⟨trivial, List.nodup_nil, ?_, ?_, ?_⟩
    · intro a ha; cases ha
    · intro a; simp [Third.emptySt]
    · intro a ha; cases ha
  obtain ⟨addrs, hgood⟩ :=
    Third.prependAll_good xs Third.emptySt Third.new [] hgood0
  refine ⟨htrace, by rw [htrace]; simp, hiter, hnil, ?_⟩
  exact Third.dropList_of_good _ _ addrs hgood

/-- C5: popping an empty OwnedStack, pop_front on an empty RawDeque, and
head on an empty SharedPersistentList all return the empty signal (None)
and leave the container state, in particular the deque length,
unchanged. -/
theorem c5_empty_pop (α : Type) :
    (∀ l : Second.RsList α, l.head = none → Second.pop l = (none, l))
    ∧ (∀ s : Raw.LinkedList α, s.front = none →
        Raw.pop_front s = (none, s) ∧ ((Raw.pop_front s).2).len = s.len)
    ∧ (∀ (s : Third.St α) (l : Third.RsList), l.head = none →
        Third.head s l = none) := by
  refine ⟨?_, ?_, ?_⟩
  · intro l hl
    cases l with
    | mk head =>
      simp only at hl
      subst hl
      rfl
  · intro s hs
    have h : Raw.pop_front s = (none, s) := by
      simp [Raw.pop_front, hs]
    exact ⟨h, by rw [h]⟩
  · intro s l hl
    simp [Third.head, hl]

/-- C5 witness: all three empty containers actually satisfy the
hypotheses and the conclusions at concrete inputs. -/
theorem c5_empty_pop_witness :
    (Second.new (α := Nat)).head = none
    ∧ Second.pop (Second.new (α := Nat)) = (none, Second.new)
    ∧ (Raw.new (α := Nat)).front = none
    ∧ Raw.pop_front (Raw.new (α := Nat)) = (none, Raw.new)
    ∧ Third.head (Third.emptySt (α := Nat)) Third.new = none := by
  refine ⟨rfl, (c5_empty_pop Nat).1 Second.new rfl, rfl,
    ((c5_empty_pop Nat).2.1 Raw.new rfl).1,
    (c5_empty_pop Nat).2.2 Third.emptySt Third.new rfl⟩

/-- C10: each next() call on the by-value iterator of the OwnedStack
returns exactly what pop() returns on the wrapped list in the same state;
consequently it returns None exactly on the empty list, and running the
length of the list many pops yields every element exactly once in
head-to-tail order and leaves the list empty. -/
theorem c10_into_iter_refines_pop (α : Type) (l : Second.RsList α) :
    Second.IntoIter.next (Second.into_iter l) =
      ((Second.pop l).1, ⟨(Second.pop l).2⟩)
    ∧ ((Second.IntoIter.next (Second.into_iter l)).1 = none ↔ l.head = none)
    ∧ (Second.popN l (Second.toList l.head).length).1 =
        (Second.toList l.head).map some
    ∧ (Second.popN l (Second.toList l.head).length).2.head = none := by
  have hexact := Second.popN_exact (Second.toList l.head) l rfl
  refine ⟨rfl, ?_, hexact.1, hexact.2⟩
  cases hl : l.head with
  | none => simp [Second.IntoIter.next, Second.into_iter, Second.pop, hl]
  | some n => simp [Second.IntoIter.next, Second.into_iter, Second.pop, hl]

open Third in
/-- C7: tail() returns a new list whose head is the head node successor
when one exists and an empty list otherwise, and the concrete scenario
prepend(1).prepend(2).prepend(3) followed by four successive tail() calls
yields heads Some 3, Some 2, Some 1, None, None. -/
theorem c7_tail_returns_successor (α : Type) :
    (∀ (s : St α) (l : RsList),
      (Third.tail s l).2.head =
        (match l.head with
         | none => none
         | some a =>
           match s.mem a with
           | none => none
           | some (n, _) => n.next))
    ∧ Third.head Scenario.p3.1 Scenario.p3.2 = some 3
    ∧ Third.head Scenario.t1.1 Scenario.t1.2 = some 2
    ∧ Third.head Scenario.t2.1 Scenario.t2.2 = some 1
    ∧ Third.head Scenario.t3.1 Scenario.t3.2 = none
    ∧ Third.head Scenario.t4.1 Scenario.t4.2 = none := by
  refine ⟨?_, rfl, rfl, rfl, rfl, rfl⟩
  intro s l
  cases hl : l.head with
  | none => simp [Third.tail, hl]
  | some a =>
    cases hv : s.mem a with
    | none => simp [Third.tail, hl, hv]
    | some p =>
      obtain ⟨n, c⟩ := p
      simp [Third.tail, hl, hv]

open Third in
/-- C8: by-value iteration over a SharedPersistentList yields owned
elements head-to-tail while each node strong count is exactly 1, and stops
exactly at the first node whose count differs from 1, yielding nothing from
that point on. -/
theorem c8_into_iter_stops_at_shared (α : Type) (s : St α) (l : RsList)
    (addrs : List Nat)
    (hchain : Third.chain3 s.mem l.head addrs) (hnd : addrs.Nodup) :
    (Third.runIntoIter addrs.length s (Third.into_iter l)).2 =
      Third.uniquePrefixElems s.mem addrs
    ∧ (Third.runIntoIter addrs.length s (Third.into_iter l)).2.length =
        (addrs.takeWhile (fun a => Third.rcOf s.mem a == 1)).length := by
  have h := Third.runIntoIter_spec addrs s l hchain hnd
  exact ⟨h, by rw [h]; exact Third.uniquePrefixElems_length s.mem addrs⟩

/-- C8 witness: with node 0 shared by three lists (built by prepending 2
and 3 onto a shared tail [1]), by-value iteration over the list [2, 1]
yields exactly [2] and stops at the shared node. -/
theorem c8_into_iter_stops_at_shared_witness :
    Third.chain3 Scenario.q3.1.mem Scenario.q2.2.head [1, 0]
    ∧ (Third.runIntoIter 2 Scenario.q3.1 (Third.into_iter Scenario.q2.2)).2
        = [2]
    ∧ Third.rcOf Scenario.q3.1.mem 0 = 3 := by
  have hchain : Third.chain3 Scenario.q3.1.mem Scenario.q2.2.head [1, 0] := by
    simp [Scenario.q3, Scenario.q2, Scenario.q1, Third.chain3, Third.prepend,
      Third.cloneLink, Third.emptySt, Third.new, Third.Mem.update]
  have h := c8_into_iter_stops_at_shared Nat Scenario.q3.1 Scenario.q2.2
    [1, 0] hchain (by decide)
  exact ⟨hchain, h.1.trans (by rfl), rfl⟩

open Third in
/-- C9: mutable iteration over a SharedPersistentList yields a mutable
borrow (modelled by the borrowed node address) exactly for the maximal
chain prefix whose strong counts are all 1; on reaching a node with a
different count the iteration ends, yielding no borrow of it or of any
later node, and the heap is never modified (the iterator reads it only). -/
theorem c9_iter_mut_stops_at_shared (α : Type) (s : St α) (l : RsList)
    (addrs : List Nat)
    (hchain : Third.chain3 s.mem l.head addrs) :
    Third.runIterMut addrs.length s (Third.iter_mut s l) =
      addrs.takeWhile (fun a => Third.rcOf s.mem a == 1)
    ∧ ∀ a ∈ Third.runIterMut addrs.length s (Third.iter_mut s l),
        Third.rcOf s.mem a = 1 := by
  have h := Third.runIterMut_spec addrs s l hchain
  refine ⟨h, ?_⟩
  intro a ha
  rw [h] at ha
  have hp := List.mem_takeWhile_imp ha
  simpa using hp

/-- C9 witness: with node 0 shared three ways, mutable iteration over the
list [2, 1] borrows only node 1 (count 1) and stops before shared
node 0. -/
theorem c9_iter_mut_stops_at_shared_witness :
    Third.chain3 Scenario.q3.1.mem Scenario.q2.2.head [1, 0]
    ∧ Third.runIterMut 2 Scenario.q3.1
        (Third.iter_mut Scenario.q3.1 Scenario.q2.2) = [1]
    ∧ Third.rcOf Scenario.q3.1.mem 1 = 1 := by
  have hchain : Third.chain3 Scenario.q3.1.mem Scenario.q2.2.head [1, 0] := by
    simp [Scenario.q3, Scenario.q2, Scenario.q1, Third.chain3, Third.prepend,
      Third.cloneLink, Third.emptySt, Third.new, Third.Mem.update]
  have h := c9_iter_mut_stops_at_shared Nat Scenario.q3.1 Scenario.q2.2
    [1, 0] hchain
  exact ⟨hchain, h.1.trans (by rfl), rfl⟩

open Third in
/-- C6: prepend returns a brand-new list whose fresh head node holds the
value and shares (does not copy) the receiver head node; the receiver list
and every existing node keep their element and successor (only the shared
head strong count grows), any chain of the receiver is still a chain
afterwards, dropping the new list restores the heap exactly (the shared
suffix survives untouched), and dropping the original list instead leaves
the new list whole chain — fresh node, shared node and all later nodes —
unchanged. -/
theorem c6_prepend_shares_without_mutation (α : Type) (s : St α)
    (l : RsList) (x : α)
    (hfresh : ∀ a, s.nextAddr ≤ a → s.mem a = none)
    (hhead : ∀ a0, l.head = some a0 → 1 ≤ Third.rcOf s.mem a0) :
    (Third.prepend s l x).2.head = some s.nextAddr
    ∧ (Third.prepend s l x).1.mem s.nextAddr = some (⟨x, l.head⟩, 1)
    ∧ (∀ a, a ≠ s.nextAddr →
        ((Third.prepend s l x).1.mem a).map Prod.fst =
          (s.mem a).map Prod.fst)
    ∧ (∀ addrs, Third.chain3 s.mem l.head addrs →
        Third.chain3 (Third.prepend s l x).1.mem l.head addrs)
    ∧ (∀ b, (Third.dropList (Third.prepend s l x).1
        (Third.prepend s l x).2).mem b = s.mem b)
    ∧ (∀ a0, l.head = some a0 →
        (Third.dropList (Third.prepend s l x).1 l).mem s.nextAddr =
          some (⟨x, l.head⟩, 1)
        ∧ (Third.dropList (Third.prepend s l x).1 l).mem a0 = s.mem a0
        ∧ (∀ b, b ≠ s.nextAddr → b ≠ a0 →
            (Third.dropList (Third.prepend s l x).1 l).mem b = s.mem b))
    ∧ (l.head = none →
        Third.dropList (Third.prepend s l x).1 l = (Third.prepend s l x).1) := by
  have hsA : s.mem s.nextAddr = none := hfresh _ (le_refl _)
  cases hl : l.head with
  | none =>
    have hp1mem : (prepend s l x).1.mem =
        s.mem.update s.nextAddr (some (⟨x, none⟩, 1)) := by
      simp [prepend, cloneLink, hl]
    have hp1na : (prepend s l x).1.nextAddr = s.nextAddr + 1 := by
      simp [prepend, cloneLink, hl]
    have hp2 : (prepend s l x).2 = ⟨some s.nextAddr⟩ := by
      simp [prepend, cloneLink, hl]
    have hmemA : (prepend s l x).1.mem s.nextAddr = some (⟨x, none⟩, 1) := by
      rw [hp1mem]
      show Mem.update s.mem s.nextAddr (some (⟨x, none⟩, 1)) s.nextAddr = _
      rw [update3_apply, if_pos rfl]
    refine ⟨by rw [hp2], by rw [hmemA], ?_, ?_, ?_, ?_, ?_⟩
    · intro a ha
      rw [hp1mem]
      show (Mem.update s.mem s.nextAddr (some (⟨x, none⟩, 1)) a).map Prod.fst
        = _
      rw [update3_apply, if_neg ha]
    · intro addrs hc
      refine chain3_congr s.mem _ addrs ?_ _ hc
      intro b hb
      have hbsome := chain3_mem_isSome s.mem addrs _ hc b hb
      have hblt : b < s.nextAddr := by
        by_contra hcon
        push_neg at hcon
        rw [hfresh b hcon] at hbsome
        exact absurd hbsome (by simp)
      rw [hp1mem]
      show (Mem.update s.mem s.nextAddr (some (⟨x, none⟩, 1)) b).map Prod.fst
        = _
      rw [update3_apply, if_neg (by omega)]
    · intro b
      have hdl : dropList (prepend s l x).1 (prepend s l x).2 =
          dropLoop (s.nextAddr + 1) (prepend s l x).1 (some s.nextAddr) := by
        rw [dropList, hp1na, hp2]
      rw [hdl]
      have hstep : dropLoop (s.nextAddr + 1) (prepend s l x).1
          (some s.nextAddr) =
          dropLoop s.nextAddr
            { (prepend s l x).1 with
              mem := ((prepend s l x).1.mem).update s.nextAddr none } none := by
        simp [dropLoop, hmemA]
      rw [hstep, dropLoop_none]
      show ((prepend s l x).1.mem).update s.nextAddr none b = s.mem b
      rw [update3_apply]
      by_cases hbA : b = s.nextAddr
      · rw [if_pos hbA, hbA, hsA]
      · rw [if_neg hbA, hp1mem]
        show Mem.update s.mem s.nextAddr (some (⟨x, none⟩, 1)) b = s.mem b
        rw [update3_apply, if_neg hbA]
    · intro a0 ha0
      exact absurd ha0 (by simp)
    · intro _
      rw [dropList, hl, dropLoop_none]
  | some a0 =>
    have hrc0 := hhead a0 hl
    obtain ⟨n0, c0, hv0⟩ : ∃ n0 c0, s.mem a0 = some (n0, c0) := by
      cases hv : s.mem a0 with
      | none =>
        simp [rcOf, hv] at hrc0
      | some p => exact ⟨p.1, p.2, rfl⟩
    have hc0 : 1 ≤ c0 := by
      rw [rcOf, hv0] at hrc0
      exact hrc0
    have ha0lt : a0 < s.nextAddr := by
      by_contra hcon
      push_neg at hcon
      rw [hfresh a0 hcon] at hv0
      exact absurd hv0 (by simp)
    have hane : a0 ≠ s.nextAddr := by omega
    have hp1mem : (prepend s l x).1.mem =
        (s.mem.update a0 (some (n0, c0 + 1))).update s.nextAddr
          (some (⟨x, some a0⟩, 1)) := by
      simp [prepend, cloneLink, hl, hv0]
    have hp1na : (prepend s l x).1.nextAddr = s.nextAddr + 1 := by
      simp [prepend, cloneLink, hl, hv0]
    have hp2 : (prepend s l x).2 = ⟨some s.nextAddr⟩ := by
      simp [prepend, cloneLink, hl, hv0]
    have hmemA : (prepend s l x).1.mem s.nextAddr =
        some (⟨x, some a0⟩, 1) := by
      rw [hp1mem]
      show Mem.update _ s.nextAddr (some (⟨x, some a0⟩, 1)) s.nextAddr = _
      rw [update3_apply, if_pos rfl]
    have hmema0 : (prepend s l x).1.mem a0 = some (n0, c0 + 1) := by
      rw [hp1mem]
      show Mem.update _ s.nextAddr (some (⟨x, some a0⟩, 1)) a0 = _
      rw [update3_apply, if_neg hane]
      show Mem.update s.mem a0 (some (n0, c0 + 1)) a0 = _
      rw [update3_apply, if_pos rfl]
    have hmem_other : ∀ b, b ≠ s.nextAddr → b ≠ a0 →
        (prepend s l x).1.mem b = s.mem b := by
      intro b hbA hb0
      rw [hp1mem]
      show Mem.update _ s.nextAddr (some (⟨x, some a0⟩, 1)) b = _
      rw [update3_apply, if_neg hbA]
      show Mem.update s.mem a0 (some (n0, c0 + 1)) b = _
      rw [update3_apply, if_neg hb0]
    refine ⟨by rw [hp2], hmemA, ?_, ?_, ?_, ?_, ?_⟩
    · intro a ha
      by_cases hb0 : a = a0
      · rw [hb0, hmema0, hv0]
        rfl
      · rw [hmem_other a ha hb0]
    · intro addrs hc
      refine chain3_congr s.mem _ addrs ?_ _ hc
      intro b hb
      have hbsome := chain3_mem_isSome s.mem addrs _ hc b hb
      have hblt : b < s.nextAddr := by
        by_contra hcon
        push_neg at hcon
        rw [hfresh b hcon] at hbsome
        exact absurd hbsome (by simp)
      by_cases hb0 : b = a0
      · rw [hb0, hmema0, hv0]
        rfl
      · rw [hmem_other b (by omega) hb0]
    · intro b
      have hdl : dropList (prepend s l x).1 (prepend s l x).2 =
          dropLoop (s.nextAddr + 1) (prepend s l x).1 (some s.nextAddr) := by
        rw [dropList, hp1na, hp2]
      rw [hdl]
      have hstep : dropLoop (s.nextAddr + 1) (prepend s l x).1
          (some s.nextAddr) =
          dropLoop s.nextAddr
            { (prepend s l x).1 with
              mem := ((prepend s l x).1.mem).update s.nextAddr none }
            (some a0) := by
        simp [dropLoop, hmemA]
      rw [hstep]
      obtain ⟨f, hf⟩ : ∃ f, s.nextAddr = f + 1 := ⟨s.nextAddr - 1, by omega⟩
      have hs1a0 : ((prepend s l x).1.mem).update s.nextAddr none a0 =
          some (n0, c0 + 1) := by
        rw [update3_apply, if_neg hane, hmema0]
      have hcne : ¬(c0 + 1 = 1) := by omega
      have hstep2 : dropLoop s.nextAddr
          { (prepend s l x).1 with
            mem := ((prepend s l x).1.mem).update s.nextAddr none }
          (some a0) =
          { (prepend s l x).1 with
            mem := (((prepend s l x).1.mem).update s.nextAddr none).update a0
              (some (n0, c0)) } := by
        rw [hf] at hs1a0 ⊢
        simp [dropLoop, hs1a0, hcne]
      rw [hstep2]
      show (((prepend s l x).1.mem).update s.nextAddr none).update a0
        (some (n0, c0)) b = s.mem b
      rw [update3_apply]
      by_cases hb0 : b = a0
      · rw [if_pos hb0, hb0, hv0]
      · rw [if_neg hb0, update3_apply]
        by_cases hbA : b = s.nextAddr
        · rw [if_pos hbA, hbA, hsA]
        · rw [if_neg hbA]
          exact hmem_other b hbA hb0
    · intro a0' ha0'
      have ha0eq : a0' = a0 := by
        injection ha0' with h
        exact h.symm
      subst ha0eq
      have hdl : dropList (prepend s l x).1 l =
          dropLoop (s.nextAddr + 1) (prepend s l x).1 (some a0') := by
        rw [dropList, hp1na, hl]
      have hcne : ¬(c0 + 1 = 1) := by omega
      have hstep : dropLoop (s.nextAddr + 1) (prepend s l x).1 (some a0') =
          { (prepend s l x).1 with
            mem := ((prepend s l x).1.mem).update a0' (some (n0, c0)) } := by
        simp [dropLoop, hmema0, hcne]
      rw [hdl, hstep]
      refine ⟨?_, ?_, ?_⟩
      · show ((prepend s l x).1.mem).update a0' (some (n0, c0)) s.nextAddr = _
        rw [update3_apply, if_neg (Ne.symm hane), hmemA]
      · show ((prepend s l x).1.mem).update a0' (some (n0, c0)) a0' = _
        rw [update3_apply, if_pos rfl, hv0]
      · intro b hbA hb0
        show ((prepend s l x).1.mem).update a0' (some (n0, c0)) b = _
        rw [update3_apply, if_neg hb0]
        exact hmem_other b hbA hb0
    · intro hcon
      exact absurd hcon (by simp)

open Third in
/-- C6 witness: prepending 2 onto the one-node list [1] and then dropping
the new list restores the heap at every address, in particular at the
shared node 0 and at the fresh node 1. -/
theorem c6_prepend_shares_without_mutation_witness :
    (∀ a, Scenario.q1.1.nextAddr ≤ a → Scenario.q1.1.mem a = none)
    ∧ (Third.prepend Scenario.q1.1 Scenario.q1.2 2).2.head = some 1
    ∧ (Third.dropList (Third.prepend Scenario.q1.1 Scenario.q1.2 2).1
        (Third.prepend Scenario.q1.1 Scenario.q1.2 2).2).mem 0 =
          Scenario.q1.1.mem 0 := by
  have hfresh : ∀ a, Scenario.q1.1.nextAddr ≤ a → Scenario.q1.1.mem a = none := by
    intro a ha
    have h1 : Scenario.q1.1.nextAddr = 1 := rfl
    rw [h1] at ha
    show Third.Mem.update (fun _ => none) 0 (some (⟨1, none⟩, 1)) a = none
    rw [Third.update3_apply, if_neg (by omega)]
  have hhead : ∀ a0, Scenario.q1.2.head = some a0 →
      1 ≤ Third.rcOf Scenario.q1.1.mem a0 := by
    intro a0 h
    have h0 : Scenario.q1.2.head = some 0 := rfl
    rw [h0] at h
    injection h with h
    rw [← h]
    rfl
  have h := c6_prepend_shares_without_mutation Nat Scenario.q1.1
    Scenario.q1.2 2 hfresh hhead
  exact ⟨hfresh, h.1, h.2.2.2.2.1 0⟩
